import Mathlib

/-!
# Stem geometry (`src/engraving/libmscore/stem.cpp`)

A shallow embedding of `Stem::layout`, `Stem::setBaseLength`,
`Stem::spatiumChanged` and `Stem::editDrag`, with the properties of the
layout algorithm stated and proved over it.

`double` is modelled by `ℚ` (exact arithmetic).  The collaborators the stem
only reads (chord, note, hook, staff type) are records of the attributes the
code queries.
-/

namespace Ms

/-! ## Geometry value types -/

/-- Modelled from the spec: `PointF` (declared outside `stem.cpp`), a point
with two coordinates. -/
structure PointF where
  x : ℚ
  y : ℚ
deriving DecidableEq

/-- Modelled from the spec: `LineF` (declared outside `stem.cpp`), the
"line segment (two endpoints)". -/
structure LineF where
  p1 : PointF
  p2 : PointF
deriving DecidableEq

/-- Modelled from the spec: `LineF::setLine(x1, y1, x2, y2)`, which stores
the two endpoints `(x1, y1)` and `(x2, y2)`. -/
def LineF.setLine (x1 y1 x2 y2 : ℚ) : LineF :=
  { p1 := { x := x1, y := y1 }, p2 := { x := x2, y := y2 } }

/-- Modelled from the spec: `RectF` (declared outside `stem.cpp`), an
axis-aligned rectangle stored as origin, width and height. -/
structure RectF where
  x : ℚ
  y : ℚ
  w : ℚ
  h : ℚ
deriving DecidableEq

/-- Modelled from the spec: the constructor `RectF(topLeft, bottomRight)`,
the rectangle spanning two points. -/
def RectF.ofPoints (a b : PointF) : RectF :=
  { x := a.x, y := a.y, w := b.x - a.x, h := b.y - a.y }

def RectF.left (r : RectF) : ℚ := r.x
def RectF.right (r : RectF) : ℚ := r.x + r.w
def RectF.top (r : RectF) : ℚ := r.y
def RectF.bottom (r : RectF) : ℚ := r.y + r.h

/-- Modelled from the spec: `RectF::normalized()`, "the normalized rectangle":
a negative width or height is flipped so that both become non-negative. -/
def RectF.normalized (r : RectF) : RectF :=
  let r1 : RectF := if r.w < 0 then { r with x := r.x + r.w, w := -r.w } else r
  if r1.h < 0 then { r1 with y := r1.y + r1.h, h := -r1.h } else r1

/-- Modelled from the spec: `RectF::adjusted(dx1, dy1, dx2, dy2)`, which adds
the four offsets to the left, top, right and bottom edges ("expanded
horizontally by `halfLineWidth` on each side"). -/
def RectF.adjusted (r : RectF) (dx1 dy1 dx2 dy2 : ℚ) : RectF :=
  { x := r.x + dx1, y := r.y + dy1, w := r.w - dx1 + dx2, h := r.h - dy1 + dy2 }

/-- Containment of a point in a rectangle, edges included. -/
def RectF.containsPoint (r : RectF) (p : PointF) : Prop :=
  r.left ≤ p.x ∧ p.x ≤ r.right ∧ r.top ≤ p.y ∧ p.y ≤ r.bottom

/-! ## Collaborators read by the stem -/

/-- The attributes of a `Note` that `Stem::layout` reads. -/
structure Note where
  mirror : Bool
  stemUpSE : PointF
  stemDownNW : PointF
  rypos : ℚ
deriving DecidableEq

/-- The attributes of a `Hook` that the stem reads (`smuflAnchor`) and
writes (`pos`, through `move`). -/
structure Hook where
  smuflAnchor : PointF
  pos : PointF
deriving DecidableEq

/-- Modelled from the spec: `EngravingItem::move(PointF)` on the hook
(declared outside `stem.cpp`), which translates the stored position. -/
def Hook.move (hk : Hook) (d : PointF) : Hook :=
  { hk with pos := { x := hk.pos.x + d.x, y := hk.pos.y + d.y } }

/-- The attributes of a `StaffType` that `Stem::layout` reads;
`lineDistance` is the value of `lineDistance().val()`. -/
structure StaffType where
  isTabStaff : Bool
  stemThrough : Bool
  lineDistance : ℚ
  onLines : Bool
deriving DecidableEq

/-- The attributes of the owning `Chord` that the stem reads.  `staffType`
is the result of `staff ? staff->staffTypeForElement(chord()) : nullptr`;
`hook` is `none` for a null hook pointer; `beam` tells whether `beam()` is
non-null. -/
structure Chord where
  up : Bool
  mag : ℚ
  staffType : Option StaffType
  downString : ℤ
  upString : ℤ
  downNote : Note
  upNote : Note
  hook : Option Hook
  beam : Bool
deriving DecidableEq

/-- What the stem queries from its host element framework: the accessor
`lineWidthMag()` (declared in `stem.h`, taken here as an arbitrary function
of the stored line width and the element's current magnification) and the
value of `spatium()`. -/
structure Host where
  lineWidthMag : ℚ → ℚ → ℚ
  spatium : ℚ

/-- The accessor `lineWidthMag()` as the stored line width multiplied by the
element's magnification. -/
def Host.scaled (sp : ℚ) : Host :=
  { lineWidthMag := fun w m => w * m, spatium := sp }

/-! ## The stem -/

/-- The state of a `Stem`: the owning chord (`chord()`, possibly null), the
members `m_baseLength`, `m_userLength`, `m_lineWidth`, `m_line`, and the
inherited `mag()`, `rypos()` and `bbox()`. -/
structure Stem where
  chord : Option Chord
  baseLength : ℚ
  userLength : ℚ
  lineWidth : ℚ
  mag : ℚ
  rypos : ℚ
  line : LineF
  bbox : RectF
deriving DecidableEq

/-- The accessor `lineWidthMag()` on a stem state. -/
def Stem.lineWidthMag (host : Host) (s : Stem) : ℚ :=
  host.lineWidthMag s.lineWidth s.mag

/-- Embedding of `Stem::up`: `chord() ? chord()->up() : true`. -/
def Stem.up (s : Stem) : Bool :=
  match s.chord with
  | some c => c.up
  | none => true

/-- The note selected in the non-TAB branch of `Stem::layout`:
`up ? chord()->downNote() : chord()->upNote()`. -/
def Chord.stemNote (c : Chord) : Note :=
  if c.up then c.downNote else c.upNote

/-- The attach point chosen in the non-TAB branch of `Stem::layout`:
`stemUpSE().y()` when `(up && !mirror) || (!up && mirror)`, otherwise
`stemDownNW().y()`. -/
def Chord.stemAnchorY (c : Chord) : ℚ :=
  let note := c.stemNote
  if (c.up && !note.mirror) || (!c.up && note.mirror) then note.stemUpSE.y
  else note.stemDownNW.y

/-- The TAB branch of `Stem::layout`: the start of the stem on a tablature
staff of type `st`, with `_up` the direction factor. -/
def Stem.tabY1 (host : Host) (st : StaffType) (c : Chord) (_up : ℚ) : ℚ :=
  if st.stemThrough then
    let staffLinesDistance : ℚ := st.lineDistance * host.spatium
    let y1 : ℚ := ((c.downString - c.upString : ℤ) : ℚ) * _up * staffLinesDistance
    let y1 : ℚ := if !st.onLines then y1 - staffLinesDistance * 0.5 else y1
    y1 + _up * staffLinesDistance * 0.7
  else
    0

/-- Value of `staffType && staffType->isTabStaff()`. -/
def Chord.isTabStaff (c : Chord) : Bool :=
  match c.staffType with
  | some st => st.isTabStaff
  | none => false

/-- Embedding of `Stem::layout`. -/
def Stem.layout (host : Host) (s : Stem) : Stem :=
  let up := s.up
  let _up : ℚ := if up then -1 else 1
  let y1 : ℚ := 0
  let y2 : ℚ := _up * (s.baseLength + s.userLength)
  -- the block `if (chord()) { ... }`: the stem after `setMag` and the write
  -- to `rypos()`, together with `isTabStaff`, `y1` and `y2`
  let r : Stem × Bool × ℚ × ℚ :=
    match s.chord with
    | none => (s, false, y1, y2)
    | some c =>
      let s1 : Stem := { s with mag := c.mag }
      let nonTab : Stem × ℚ := ({ s1 with rypos := c.stemNote.rypos }, c.stemAnchorY)
      let r1 : Stem × ℚ :=
        match c.staffType with
        | some st => if st.isTabStaff then (s1, Stem.tabY1 host st c _up) else nonTab
        | none => nonTab
      let y2 : ℚ :=
        match c.hook with
        | some hk => if !c.beam then y2 + hk.smuflAnchor.y else y2
        | none => y2
      (r1.1, c.isTabStaff, r1.2, y2)
  let s2 := r.1
  let isTabStaff := r.2.1
  let y1 := r.2.2.1
  let y2 := r.2.2.2
  let lineWidthCorrection : ℚ := s2.lineWidthMag host * 0.5
  let lineX : ℚ := if isTabStaff then 0 else _up * lineWidthCorrection
  let line := LineF.setLine lineX y1 lineX y2
  let rect := RectF.ofPoints line.p1 line.p2
  { s2 with
    line := line
    bbox := rect.normalized.adjusted (-lineWidthCorrection) 0 lineWidthCorrection 0 }

/-- Embedding of `Stem::setBaseLength`. -/
def Stem.setBaseLength (host : Host) (baseLength : ℚ) (s : Stem) : Stem :=
  Stem.layout host { s with baseLength := |baseLength| }

/-- Embedding of `Stem::spatiumChanged`. -/
def Stem.spatiumChanged (host : Host) (oldValue newValue : ℚ) (s : Stem) : Stem :=
  Stem.layout host { s with userLength := (s.userLength / oldValue) * newValue }

/-- Embedding of `Stem::editDrag`, with `yDelta = ed.delta.y()`.  The call `c->hook()`
dereferences the chord pointer, so there is no result without a chord. -/
def Stem.editDrag (host : Host) (yDelta : ℚ) (s : Stem) : Option Stem :=
  let s1 : Stem := { s with userLength := s.userLength + (if s.up then -yDelta else yDelta) }
  let s2 := Stem.layout host s1
  match s2.chord with
  | none => none
  | some c =>
    match c.hook with
    | some hk =>
      some { s2 with chord := some { c with hook := some (hk.move { x := 0, y := yDelta }) } }
    | none => some s2

/-- The direction factor `_up` of `Stem::layout`: `up ? -1.0 : 1.0`. -/
def Stem.dir (s : Stem) : ℚ := if s.up then -1 else 1

/-- The amount added to `y2` by the statement
`if (chord()->hook() && !chord()->beam()) y2 += hook->smuflAnchor().y()`
of `Stem::layout`; zero when the statement does not fire. -/
def Stem.hookOffset (s : Stem) : ℚ :=
  match s.chord with
  | none => 0
  | some c =>
    match c.hook with
    | some hk => if c.beam then 0 else hk.smuflAnchor.y
    | none => 0

/-- The chord after `editDrag`: its hook, if any, moved by `(0, yDelta)`. -/
def Chord.dragged (c : Chord) (yDelta : ℚ) : Chord :=
  match c.hook with
  | some hk => { c with hook := some (hk.move { x := 0, y := yDelta }) }
  | none => c

/-! ## Sequences of mutating operations -/

/-- The operations of `stem.cpp` that write to the stem's state. -/
inductive Op where
  | setBaseLength (x : ℚ)
  | layout
  | spatiumChanged (oldValue newValue : ℚ)
  | editDrag (yDelta : ℚ)

/-- One operation applied to a stem. -/
def Stem.step (host : Host) (s : Stem) : Op → Option Stem
  | Op.setBaseLength x => some (s.setBaseLength host x)
  | Op.layout => some (s.layout host)
  | Op.spatiumChanged o n => some (s.spatiumChanged host o n)
  | Op.editDrag d => s.editDrag host d

/-- A sequence of operations applied from left to right. -/
def Stem.run (host : Host) (s : Stem) : List Op → Option Stem
  | [] => some s
  | op :: ops =>
    match s.step host op with
    | some t => t.run host ops
    | none => none

/-! ## Concrete inputs -/

/-- A note with both stem anchors at the origin. -/
def plainNote : Note :=
  { mirror := false, stemUpSE := { x := 0, y := 0 }, stemDownNW := { x := 0, y := 0 },
    rypos := 0 }

/-- An up-stem chord on a standard (non-tablature) staff, magnification 2,
no hook and no beam. -/
def plainChord : Chord :=
  { up := true, mag := 2, staffType := none, downString := 0, upString := 0,
    downNote := plainNote, upNote := plainNote, hook := none, beam := false }

/-- A freshly created stem with line width 1 and magnification 1. -/
def blankStem (chord : Option Chord) (baseLength userLength : ℚ) : Stem :=
  { chord := chord, baseLength := baseLength, userLength := userLength, lineWidth := 1,
    mag := 1, rypos := 0, line := LineF.setLine 0 0 0 0, bbox := { x := 0, y := 0, w := 0, h := 0 } }

/-- A tablature staff type with stems through the staff, line distance 1
and fret marks on the lines. -/
def tabThrough : StaffType :=
  { isTabStaff := true, stemThrough := true, lineDistance := 1, onLines := true }

/-- An up-stem tablature chord whose strings are 2 apart. -/
def tabChord : Chord :=
  { plainChord with staffType := some tabThrough, downString := 3, upString := 1 }

/-- A hook with anchor offset 1/4, at the origin. -/
def plainHook : Hook :=
  { smuflAnchor := { x := 0, y := 1 / 4 }, pos := { x := 0, y := 0 } }

/-! ## Basic facts about `layout` -/

theorem Stem.layout_chord (host : Host) (s : Stem) : (s.layout host).chord = s.chord := by
  unfold Stem.layout
  cases hc : s.chord with
  | none => simp [hc]
  | some c =>
    cases hst : c.staffType with
    | none => simp [hc, hst]
    | some st => by_cases ht : st.isTabStaff <;> simp [hc, hst, ht]

theorem Stem.layout_baseLength (host : Host) (s : Stem) :
    (s.layout host).baseLength = s.baseLength := by
  unfold Stem.layout
  cases hc : s.chord with
  | none => simp [hc]
  | some c =>
    cases hst : c.staffType with
    | none => simp [hc, hst]
    | some st => by_cases ht : st.isTabStaff <;> simp [hc, hst, ht]

theorem Stem.layout_userLength (host : Host) (s : Stem) :
    (s.layout host).userLength = s.userLength := by
  unfold Stem.layout
  cases hc : s.chord with
  | none => simp [hc]
  | some c =>
    cases hst : c.staffType with
    | none => simp [hc, hst]
    | some st => by_cases ht : st.isTabStaff <;> simp [hc, hst, ht]

theorem Stem.layout_lineWidth (host : Host) (s : Stem) :
    (s.layout host).lineWidth = s.lineWidth := by
  unfold Stem.layout
  cases hc : s.chord with
  | none => simp [hc]
  | some c =>
    cases hst : c.staffType with
    | none => simp [hc, hst]
    | some st => by_cases ht : st.isTabStaff <;> simp [hc, hst, ht]

theorem Stem.layout_mag_some (host : Host) (s : Stem) (c : Chord) (hc : s.chord = some c) :
    (s.layout host).mag = c.mag := by
  unfold Stem.layout
  cases hst : c.staffType with
  | none => simp [hc, hst]
  | some st => by_cases ht : st.isTabStaff <;> simp [hc, hst, ht]

theorem Stem.layout_mag_none (host : Host) (s : Stem) (hc : s.chord = none) :
    (s.layout host).mag = s.mag := by
  simp [Stem.layout, hc]

theorem Stem.up_layout (host : Host) (s : Stem) : (s.layout host).up = s.up := by
  simp [Stem.up, Stem.layout_chord]

/-- The far endpoint computed by `layout` when the stem has a chord. -/
theorem Stem.layout_y2_some (host : Host) (s : Stem) (c : Chord) (hc : s.chord = some c) :
    (s.layout host).line.p2.y =
      (if c.up then -1 else 1) * (s.baseLength + s.userLength) +
        (match c.hook with
          | some hk => if c.beam then 0 else hk.smuflAnchor.y
          | none => 0) := by
  unfold Stem.layout
  cases hh : c.hook with
  | none =>
    cases hst : c.staffType with
    | none => simp [hc, hst, hh, Stem.up, LineF.setLine]
    | some st => by_cases ht : st.isTabStaff <;> simp [hc, hst, ht, hh, Stem.up, LineF.setLine]
  | some hk =>
    cases hst : c.staffType with
    | none => by_cases hb : c.beam <;> simp [hc, hst, hh, hb, Stem.up, LineF.setLine]
    | some st =>
      by_cases ht : st.isTabStaff <;> by_cases hb : c.beam <;>
        simp [hc, hst, ht, hh, hb, Stem.up, LineF.setLine]

/-- The near endpoint computed by `layout` when the stem has a chord. -/
theorem Stem.layout_y1_some (host : Host) (s : Stem) (c : Chord) (hc : s.chord = some c) :
    (s.layout host).line.p1.y =
      (match c.staffType with
        | some st =>
          if st.isTabStaff then Stem.tabY1 host st c (if c.up then -1 else 1)
          else c.stemAnchorY
        | none => c.stemAnchorY) := by
  unfold Stem.layout
  cases hst : c.staffType with
  | none => simp [hc, hst, Stem.up, LineF.setLine]
  | some st => by_cases ht : st.isTabStaff <;> simp [hc, hst, ht, Stem.up, LineF.setLine]

/-- The horizontal position computed by `layout` when the stem has a chord. -/
theorem Stem.layout_x_some (host : Host) (s : Stem) (c : Chord) (hc : s.chord = some c) :
    (s.layout host).line.p1.x =
        (if c.isTabStaff then 0
         else (if c.up then -1 else 1) * (host.lineWidthMag s.lineWidth c.mag * 0.5)) ∧
      (s.layout host).line.p2.x = (s.layout host).line.p1.x := by
  unfold Stem.layout
  cases hst : c.staffType with
  | none => simp [hc, hst, Stem.up, LineF.setLine, Chord.isTabStaff, Stem.lineWidthMag]
  | some st =>
    by_cases ht : st.isTabStaff <;>
      simp [hc, hst, ht, Stem.up, LineF.setLine, Chord.isTabStaff, Stem.lineWidthMag]

/-- The segment computed by `layout` when the stem has no chord. -/
theorem Stem.layout_line_none (host : Host) (s : Stem) (hc : s.chord = none) :
    (s.layout host).line =
      LineF.setLine (-(host.lineWidthMag s.lineWidth s.mag * 0.5)) 0
        (-(host.lineWidthMag s.lineWidth s.mag * 0.5)) (-(s.baseLength + s.userLength)) := by
  simp [Stem.layout, hc, Stem.up, LineF.setLine, Stem.lineWidthMag]

/-- The bounding box stored by `layout` is built from the stored segment
and the half line width of the resulting state. -/
theorem Stem.layout_bbox_eq (host : Host) (s : Stem) :
    (s.layout host).bbox =
      (RectF.ofPoints (s.layout host).line.p1 (s.layout host).line.p2).normalized.adjusted
        (-((s.layout host).lineWidthMag host * 0.5)) 0
        ((s.layout host).lineWidthMag host * 0.5) 0 := by
  unfold Stem.layout
  cases hc : s.chord with
  | none => simp [hc, Stem.lineWidthMag]
  | some c =>
    cases hst : c.staffType with
    | none => simp [hc, hst, Stem.lineWidthMag]
    | some st => by_cases ht : st.isTabStaff <;> simp [hc, hst, ht, Stem.lineWidthMag]

/-- The far endpoint computed by `layout`, in every state. -/
theorem Stem.layout_y2 (host : Host) (s : Stem) :
    (s.layout host).line.p2.y = s.dir * (s.baseLength + s.userLength) + s.hookOffset := by
  cases hc : s.chord with
  | none => simp [Stem.layout_line_none host s hc, LineF.setLine, Stem.dir, Stem.up,
      Stem.hookOffset, hc]
  | some c => simp [Stem.layout_y2_some host s c hc, Stem.dir, Stem.up, Stem.hookOffset, hc]

/-! ## Length of the laid-out stem -/

/-- C1 as stated fails: on a standard staff, with no hook, anchor 0,
base length 1, user length 0 and chord magnification 2, the laid-out stem
has length 1, not the magnification-scaled length 2. -/
theorem Stem.layout_length_not_mag_scaled :
    (blankStem (some plainChord) 1 0).chord = some plainChord ∧
      0 ≤ (blankStem (some plainChord) 1 0).baseLength ∧
      plainChord.isTabStaff = false ∧ plainChord.hook = none ∧ plainChord.stemAnchorY = 0 ∧
      |((blankStem (some plainChord) 1 0).layout (Host.scaled 1)).line.p2.y -
          ((blankStem (some plainChord) 1 0).layout (Host.scaled 1)).line.p1.y| ≠
        plainChord.mag *
          ((blankStem (some plainChord) 1 0).baseLength +
            (blankStem (some plainChord) 1 0).userLength) := by
  refine ⟨rfl, ?_, rfl, rfl, ?_, ?_⟩
  · norm_num [blankStem]
  · simp [Chord.stemAnchorY, Chord.stemNote, plainChord, plainNote]
  · rw [Stem.layout_y2_some _ _ plainChord rfl, Stem.layout_y1_some _ _ plainChord rfl]
    norm_num [blankStem, plainChord, plainNote, Chord.stemAnchorY, Chord.stemNote]

/-- C1 (amended): on a non-tablature staff, with no hook adjustment and a
selected note anchor of y = 0, the laid-out stem has length
`|baseLength + userLength|`, which is `baseLength + userLength` when that
sum is non-negative; the chord's magnification does not enter. -/
theorem Stem.layout_length (host : Host) (s : Stem) (c : Chord)
    (hc : s.chord = some c) (_hb : 0 ≤ s.baseLength) (htab : c.isTabStaff = false)
    (hhook : c.hook = none ∨ c.beam = true) (hanchor : c.stemAnchorY = 0) :
    |(s.layout host).line.p2.y - (s.layout host).line.p1.y| = |s.baseLength + s.userLength| ∧
      (0 ≤ s.baseLength + s.userLength →
        |(s.layout host).line.p2.y - (s.layout host).line.p1.y| =
          s.baseLength + s.userLength) := by
  have hy1 : (s.layout host).line.p1.y = 0 := by
    rw [Stem.layout_y1_some host s c hc]
    cases hst : c.staffType with
    | none => simpa using hanchor
    | some st =>
      have : st.isTabStaff = false := by simpa [Chord.isTabStaff, hst] using htab
      simpa [this] using hanchor
  have hy2 : (s.layout host).line.p2.y = (if c.up then -1 else 1) * (s.baseLength + s.userLength) := by
    rw [Stem.layout_y2_some host s c hc]
    rcases hhook with h | h
    · simp [h]
    · cases hh : c.hook <;> simp [h]
  have habs : |(s.layout host).line.p2.y - (s.layout host).line.p1.y| =
      |s.baseLength + s.userLength| := by
    rw [hy1, hy2]
    by_cases hup : c.up
    · simp only [hup, if_true, sub_zero, neg_one_mul, abs_neg]
    · simp [hup]
  exact ⟨habs, fun h => by rw [habs, abs_of_nonneg h]⟩

theorem Stem.layout_length_witness :
    (blankStem (some plainChord) 3 (1 / 2)).chord = some plainChord ∧
      |((blankStem (some plainChord) 3 (1 / 2)).layout (Host.scaled 1)).line.p2.y -
          ((blankStem (some plainChord) 3 (1 / 2)).layout (Host.scaled 1)).line.p1.y| =
        |(blankStem (some plainChord) 3 (1 / 2)).baseLength +
          (blankStem (some plainChord) 3 (1 / 2)).userLength| :=
  ⟨rfl, (Stem.layout_length (Host.scaled 1) (blankStem (some plainChord) 3 (1 / 2)) plainChord rfl
    (by norm_num [blankStem]) rfl (Or.inl rfl)
    (by simp [Chord.stemAnchorY, Chord.stemNote, plainChord, plainNote])).1⟩

/-! ## Direction of the laid-out stem -/

/-- C2 as stated fails: an up-stem with base length 1 and user length -2 on
a standard staff (anchor 0, no hook) is laid out from y1 = 0 to y2 = 1, so
y2 ≤ y1 does not hold. -/
theorem Stem.layout_direction_fails :
    (blankStem (some plainChord) 1 (-2)).up = true ∧
      ((blankStem (some plainChord) 1 (-2)).layout (Host.scaled 1)).line.p1.y = 0 ∧
      ((blankStem (some plainChord) 1 (-2)).layout (Host.scaled 1)).line.p2.y = 1 ∧
      ¬ (((blankStem (some plainChord) 1 (-2)).layout (Host.scaled 1)).line.p2.y ≤
          ((blankStem (some plainChord) 1 (-2)).layout (Host.scaled 1)).line.p1.y) := by
  have h1 : ((blankStem (some plainChord) 1 (-2)).layout (Host.scaled 1)).line.p1.y = 0 := by
    rw [Stem.layout_y1_some _ _ plainChord rfl]
    simp [plainChord, plainNote, Chord.stemAnchorY, Chord.stemNote]
  have h2 : ((blankStem (some plainChord) 1 (-2)).layout (Host.scaled 1)).line.p2.y = 1 := by
    rw [Stem.layout_y2_some _ _ plainChord rfl]
    norm_num [blankStem, plainChord]
  refine ⟨rfl, h1, h2, ?_⟩
  rw [h1, h2]
  norm_num

/-- C2 (amended): with `hookOffset` the hook anchor offset that layout adds
to y2 (zero unless the chord has a hook and no beam), an up-stem satisfies
y2 ≤ y1 exactly when `hookOffset - y1 ≤ baseLength + userLength`, and a
down-stem satisfies y2 ≥ y1 exactly when
`y1 - hookOffset ≤ baseLength + userLength`; in particular the direction
invariant holds whenever y1 = 0, no hook offset is added and
`baseLength + userLength ≥ 0`. -/
theorem Stem.layout_direction_iff (host : Host) (s : Stem) :
    (s.up = true →
      ((s.layout host).line.p2.y ≤ (s.layout host).line.p1.y ↔
        s.hookOffset - (s.layout host).line.p1.y ≤ s.baseLength + s.userLength)) ∧
    (s.up = false →
      ((s.layout host).line.p1.y ≤ (s.layout host).line.p2.y ↔
        (s.layout host).line.p1.y - s.hookOffset ≤ s.baseLength + s.userLength)) ∧
    ((s.layout host).line.p1.y = 0 → s.hookOffset = 0 → 0 ≤ s.baseLength + s.userLength →
      (s.up = true → (s.layout host).line.p2.y ≤ (s.layout host).line.p1.y) ∧
      (s.up = false → (s.layout host).line.p1.y ≤ (s.layout host).line.p2.y)) := by
  have hy2 := Stem.layout_y2 host s
  refine ⟨fun hup => ?_, fun hup => ?_, fun h1 h0 hlen => ⟨fun hup => ?_, fun hup => ?_⟩⟩
  · rw [hy2]
    simp only [Stem.dir, hup, if_true]
    constructor <;> intro h <;> linarith
  · rw [hy2]
    simp only [Stem.dir, hup]
    constructor <;> intro h <;> simp at h ⊢ <;> linarith
  · rw [hy2, h1, h0]
    simp only [Stem.dir, hup, if_true]
    linarith
  · rw [hy2, h1, h0]
    simp [Stem.dir, hup]
    linarith

theorem Stem.layout_direction_iff_witness :
    (blankStem (some plainChord) 3 (1 / 2)).up = true ∧
      (((blankStem (some plainChord) 3 (1 / 2)).layout (Host.scaled 1)).line.p2.y ≤
          ((blankStem (some plainChord) 3 (1 / 2)).layout (Host.scaled 1)).line.p1.y ↔
        (blankStem (some plainChord) 3 (1 / 2)).hookOffset -
            ((blankStem (some plainChord) 3 (1 / 2)).layout (Host.scaled 1)).line.p1.y ≤
          (blankStem (some plainChord) 3 (1 / 2)).baseLength +
            (blankStem (some plainChord) 3 (1 / 2)).userLength) :=
  ⟨rfl, (Stem.layout_direction_iff (Host.scaled 1) (blankStem (some plainChord) 3 (1 / 2))).1 rfl⟩

/-! ## Hook suppression -/

/-- C3: for a stem with an owning chord and `dir = -1` if up else `+1`, a
hook without a beam gives `y2 = dir * (baseLength + userLength) + hookAnchorY`;
a hook together with a beam, or no hook, gives
`y2 = dir * (baseLength + userLength)`. -/
theorem Stem.layout_hook_suppression (host : Host) (s : Stem) (c : Chord)
    (hc : s.chord = some c) :
    (∀ hk : Hook, c.hook = some hk → c.beam = false →
      (s.layout host).line.p2.y =
        (if s.up then -1 else 1) * (s.baseLength + s.userLength) + hk.smuflAnchor.y) ∧
    (c.hook = none ∨ c.beam = true →
      (s.layout host).line.p2.y = (if s.up then -1 else 1) * (s.baseLength + s.userLength)) := by
  have hup : s.up = c.up := by simp [Stem.up, hc]
  rw [Stem.layout_y2_some host s c hc, hup]
  refine ⟨fun hk hh hb => by simp [hh, hb], fun h => ?_⟩
  rcases h with h | h
  · simp [h]
  · cases hh : c.hook <;> simp [h]

theorem Stem.layout_hook_suppression_witness :
    (blankStem (some { plainChord with hook := some plainHook }) 3 0).chord =
        some { plainChord with hook := some plainHook } ∧
      ((blankStem (some { plainChord with hook := some plainHook }) 3 0).layout
          (Host.scaled 1)).line.p2.y =
        (if (blankStem (some { plainChord with hook := some plainHook }) 3 0).up then -1 else 1) *
            ((blankStem (some { plainChord with hook := some plainHook }) 3 0).baseLength +
              (blankStem (some { plainChord with hook := some plainHook }) 3 0).userLength) +
          plainHook.smuflAnchor.y :=
  ⟨rfl, (Stem.layout_hook_suppression (Host.scaled 1)
    (blankStem (some { plainChord with hook := some plainHook }) 3 0)
    { plainChord with hook := some plainHook } rfl).1 plainHook rfl rfl⟩

/-! ## Bounding box -/

/-- C4: with `hw = lineWidthMag / 2 ≥ 0` and segment `(x, y1)`–`(x, y2)`,
the bounding box stored by layout has left = x - hw, right = x + hw,
top = min(y1, y2) and bottom = max(y1, y2), and contains both endpoints. -/
theorem Stem.layout_bbox (host : Host) (s : Stem)
    (hhw : 0 ≤ (s.layout host).lineWidthMag host / 2) :
    (s.layout host).line.p2.x = (s.layout host).line.p1.x ∧
      (s.layout host).bbox.left =
        (s.layout host).line.p1.x - (s.layout host).lineWidthMag host / 2 ∧
      (s.layout host).bbox.right =
        (s.layout host).line.p1.x + (s.layout host).lineWidthMag host / 2 ∧
      (s.layout host).bbox.top =
        min (s.layout host).line.p1.y (s.layout host).line.p2.y ∧
      (s.layout host).bbox.bottom =
        max (s.layout host).line.p1.y (s.layout host).line.p2.y ∧
      (s.layout host).bbox.containsPoint (s.layout host).line.p1 ∧
      (s.layout host).bbox.containsPoint (s.layout host).line.p2 := by
  have hx : (s.layout host).line.p2.x = (s.layout host).line.p1.x := by
    cases hc : s.chord with
    | none => simp [Stem.layout_line_none host s hc, LineF.setLine]
    | some c => exact (Stem.layout_x_some host s c hc).2
  have hbox := Stem.layout_bbox_eq host s
  generalize (s.layout host).lineWidthMag host = lw at hhw hbox
  generalize (s.layout host).bbox = b at hbox
  generalize (s.layout host).line = l at hx hbox
  obtain ⟨⟨x1, y1⟩, ⟨x2, y2⟩⟩ := l
  simp only at hx
  subst hx
  subst hbox
  have h05 : lw * (0.5 : ℚ) = lw / 2 := by norm_num; ring
  rw [h05]
  by_cases hlt : y2 - y1 < 0
  · have hle : y2 ≤ y1 := by linarith
    simp only [RectF.ofPoints, RectF.normalized, RectF.adjusted, RectF.left, RectF.right,
      RectF.top, RectF.bottom, RectF.containsPoint, sub_self, lt_self_iff_false, if_false, hlt,
      if_true, min_eq_right hle, max_eq_left hle]
    refine ⟨trivial, ?_, ?_, ?_, ?_, ⟨?_, ?_, ?_, ?_⟩, ⟨?_, ?_, ?_, ?_⟩⟩ <;> linarith
  · have hle : y1 ≤ y2 := by linarith
    simp only [RectF.ofPoints, RectF.normalized, RectF.adjusted, RectF.left, RectF.right,
      RectF.top, RectF.bottom, RectF.containsPoint, sub_self, lt_self_iff_false, if_false, hlt,
      min_eq_left hle, max_eq_right hle]
    refine ⟨trivial, ?_, ?_, ?_, ?_, ⟨?_, ?_, ?_, ?_⟩, ⟨?_, ?_, ?_, ?_⟩⟩ <;> linarith

theorem Stem.layout_bbox_witness :
    0 ≤ ((blankStem (some plainChord) 3 0).layout (Host.scaled 1)).lineWidthMag
        (Host.scaled 1) / 2 ∧
      ((blankStem (some plainChord) 3 0).layout (Host.scaled 1)).bbox.bottom =
        max ((blankStem (some plainChord) 3 0).layout (Host.scaled 1)).line.p1.y
          ((blankStem (some plainChord) 3 0).layout (Host.scaled 1)).line.p2.y :=
  have h : 0 ≤ ((blankStem (some plainChord) 3 0).layout (Host.scaled 1)).lineWidthMag
      (Host.scaled 1) / 2 := by
    rw [Stem.lineWidthMag, Stem.layout_lineWidth,
      Stem.layout_mag_some (Host.scaled 1) (blankStem (some plainChord) 3 0) plainChord rfl]
    norm_num [Host.scaled, blankStem, plainChord]
  ⟨h, (Stem.layout_bbox (Host.scaled 1) (blankStem (some plainChord) 3 0) h).2.2.2.2.1⟩

/-! ## Rescaling -/

/-- C5: for nonzero units `a` and `b`, `spatiumChanged(a, b)` followed by
`spatiumChanged(b, a)` restores `userLength`. -/
theorem Stem.spatiumChanged_roundtrip (host host2 : Host) (s : Stem) (a b : ℚ)
    (ha : a ≠ 0) (hb : b ≠ 0) :
    ((s.spatiumChanged host a b).spatiumChanged host2 b a).userLength = s.userLength := by
  simp only [Stem.spatiumChanged, Stem.layout_userLength]
  field_simp
  ring

theorem Stem.spatiumChanged_roundtrip_witness :
    (5 : ℚ) ≠ 0 ∧ (7 : ℚ) ≠ 0 ∧
      (((blankStem (some plainChord) 3 (1 / 2)).spatiumChanged (Host.scaled 7) 5 7).spatiumChanged
        (Host.scaled 5) 7 5).userLength = (blankStem (some plainChord) 3 (1 / 2)).userLength :=
  ⟨by norm_num, by norm_num,
    Stem.spatiumChanged_roundtrip (Host.scaled 7) (Host.scaled 5)
      (blankStem (some plainChord) 3 (1 / 2)) 5 7 (by norm_num) (by norm_num)⟩

/-! ## Tablature, stems through the staff -/

/-- C8: on a tablature staff with stems through the staff, with
`L = lineDistance * spatium` and `dir = -1` if up else `+1`, layout sets
`y1 = dir * (downString - upString) * L - (0 if onLines else L / 2) + dir * 0.7 * L`. -/
theorem Stem.layout_tab_through_y1 (host : Host) (s : Stem) (c : Chord) (st : StaffType)
    (hc : s.chord = some c) (hst : c.staffType = some st) (htab : st.isTabStaff = true)
    (hthrough : st.stemThrough = true) :
    (s.layout host).line.p1.y =
      (if s.up then -1 else 1) * ((c.downString - c.upString : ℤ) : ℚ) *
          (st.lineDistance * host.spatium) -
        (if st.onLines then 0 else st.lineDistance * host.spatium / 2) +
        (if s.up then -1 else 1) * 0.7 * (st.lineDistance * host.spatium) := by
  have hup : s.up = c.up := by simp [Stem.up, hc]
  rw [Stem.layout_y1_some host s c hc, hup]
  simp only [hst, htab, if_true, Stem.tabY1, hthrough]
  by_cases hon : st.onLines <;> by_cases hcu : c.up <;> simp [hon, hcu] <;> norm_num <;> ring

theorem Stem.layout_tab_through_y1_witness :
    (blankStem (some tabChord) 3 0).chord = some tabChord ∧
      tabChord.staffType = some tabThrough ∧ tabThrough.isTabStaff = true ∧
      tabThrough.stemThrough = true ∧ tabThrough.onLines = true ∧
      tabChord.downString - tabChord.upString = 2 ∧
      ((blankStem (some tabChord) 3 0).layout (Host.scaled 1)).line.p1.y = -2.7 :=
  ⟨rfl, rfl, rfl, rfl, rfl, by decide,
    (Stem.layout_tab_through_y1 (Host.scaled 1) (blankStem (some tabChord) 3 0) tabChord
      tabThrough rfl rfl rfl rfl).trans
      (by norm_num [blankStem, tabChord, plainChord, tabThrough, Host.scaled, Stem.up])⟩

/-! ## Missing chord -/

/-- C9: without an owning chord, layout is defined, the direction is up,
the stored magnification and vertical position are left alone, and the
segment is `((-hw, 0), (-hw, -(baseLength + userLength)))` with
`hw = lineWidthMag / 2`. -/
theorem Stem.layout_no_chord (host : Host) (s : Stem) (hc : s.chord = none) :
    s.up = true ∧
      (s.layout host).mag = s.mag ∧ (s.layout host).rypos = s.rypos ∧
      (s.layout host).line =
        LineF.setLine (-(s.lineWidthMag host / 2)) 0 (-(s.lineWidthMag host / 2))
          (-(s.baseLength + s.userLength)) := by
  refine ⟨by simp [Stem.up, hc], Stem.layout_mag_none host s hc, by simp [Stem.layout, hc], ?_⟩
  rw [Stem.layout_line_none host s hc]
  have h05 : host.lineWidthMag s.lineWidth s.mag * (0.5 : ℚ) = s.lineWidthMag host / 2 := by
    simp only [Stem.lineWidthMag]
    norm_num
    ring
  rw [h05]

theorem Stem.layout_no_chord_witness :
    (blankStem none 3 (1 / 2)).chord = none ∧
      ((blankStem none 3 (1 / 2)).layout (Host.scaled 1)).line =
        LineF.setLine (-(1 / 2)) 0 (-(1 / 2)) (-(7 / 2)) :=
  ⟨rfl, ((Stem.layout_no_chord (Host.scaled 1) (blankStem none 3 (1 / 2)) rfl).2.2.2).trans
    (by norm_num [blankStem, Stem.lineWidthMag, Host.scaled, LineF.setLine])⟩

/-! ## Idempotence -/

/-- The segment and bounding box computed by `layout` are determined by the
chord, the two lengths, the line width and, without a chord, the stored
magnification. -/
theorem Stem.layout_congr (host : Host) (s t : Stem) (hchord : t.chord = s.chord)
    (hbase : t.baseLength = s.baseLength) (huser : t.userLength = s.userLength)
    (hwidth : t.lineWidth = s.lineWidth) (hmag : s.chord = none → t.mag = s.mag) :
    (t.layout host).line = (s.layout host).line ∧ (t.layout host).bbox = (s.layout host).bbox := by
  unfold Stem.layout
  cases hc : s.chord with
  | none =>
    have hm := hmag hc
    simp [hc, hchord, hbase, huser, hwidth, hm, Stem.up, Stem.lineWidthMag]
  | some c =>
    cases hst : c.staffType with
    | none => simp [hc, hchord, hbase, huser, hwidth, hst, Stem.up, Stem.lineWidthMag]
    | some st =>
      by_cases ht : st.isTabStaff <;>
        simp [hc, hchord, hbase, huser, hwidth, hst, ht, Stem.up, Stem.lineWidthMag]

/-- C6 as stated fails: without a chord and with `lineWidthMag()` the line
width times the magnification, two stems that differ only in the stored
magnification are laid out at different horizontal positions. -/
theorem Stem.layout_depends_on_stored_mag :
    ({ blankStem none 3 0 with mag := 2 } : Stem).chord = (blankStem none 3 0).chord ∧
      ({ blankStem none 3 0 with mag := 2 } : Stem).baseLength = (blankStem none 3 0).baseLength ∧
      ({ blankStem none 3 0 with mag := 2 } : Stem).userLength = (blankStem none 3 0).userLength ∧
      ({ blankStem none 3 0 with mag := 2 } : Stem).lineWidth = (blankStem none 3 0).lineWidth ∧
      (({ blankStem none 3 0 with mag := 2 } : Stem).layout (Host.scaled 1)).line.p1.x = -1 ∧
      ((blankStem none 3 0).layout (Host.scaled 1)).line.p1.x = -(1 / 2) ∧
      (({ blankStem none 3 0 with mag := 2 } : Stem).layout (Host.scaled 1)).line ≠
        ((blankStem none 3 0).layout (Host.scaled 1)).line := by
  have h1 : (({ blankStem none 3 0 with mag := 2 } : Stem).layout (Host.scaled 1)).line.p1.x
      = -1 := by
    rw [Stem.layout_line_none _ _ rfl]
    norm_num [blankStem, Host.scaled, LineF.setLine]
  have h2 : ((blankStem none 3 0).layout (Host.scaled 1)).line.p1.x = -(1 / 2) := by
    rw [Stem.layout_line_none _ _ rfl]
    norm_num [blankStem, Host.scaled, LineF.setLine]
  refine ⟨rfl, rfl, rfl, rfl, h1, h2, fun h => ?_⟩
  rw [h] at h1
  rw [h1] at h2
  norm_num at h2

/-- C6 (amended): a second run of layout yields the same segment and
bounding box as the first; the result does not depend on the previously
stored segment, bounding box or vertical position, nor on the stored
magnification when the stem has a chord (without a chord the stored
magnification is kept and is an input of the result). -/
theorem Stem.layout_idempotent (host : Host) (s t : Stem) (hchord : t.chord = s.chord)
    (hbase : t.baseLength = s.baseLength) (huser : t.userLength = s.userLength)
    (hwidth : t.lineWidth = s.lineWidth) (hmag : s.chord = none → t.mag = s.mag) :
    ((s.layout host).layout host).line = (s.layout host).line ∧
      ((s.layout host).layout host).bbox = (s.layout host).bbox ∧
      (t.layout host).line = (s.layout host).line ∧
      (t.layout host).bbox = (s.layout host).bbox := by
  have h1 := Stem.layout_congr host s (s.layout host) (Stem.layout_chord host s)
    (Stem.layout_baseLength host s) (Stem.layout_userLength host s)
    (Stem.layout_lineWidth host s) (Stem.layout_mag_none host s)
  have h2 := Stem.layout_congr host s t hchord hbase huser hwidth hmag
  exact ⟨h1.1, h1.2, h2.1, h2.2⟩

theorem Stem.layout_idempotent_witness :
    (((blankStem (some plainChord) 3 0).layout (Host.scaled 1)).layout (Host.scaled 1)).line =
        ((blankStem (some plainChord) 3 0).layout (Host.scaled 1)).line ∧
      (({ blankStem (some plainChord) 3 0 with
            mag := 5, rypos := 4, line := LineF.setLine 1 2 3 4 } : Stem).layout
          (Host.scaled 1)).line =
        ((blankStem (some plainChord) 3 0).layout (Host.scaled 1)).line :=
  have h := Stem.layout_idempotent (Host.scaled 1) (blankStem (some plainChord) 3 0)
    { blankStem (some plainChord) 3 0 with mag := 5, rypos := 4, line := LineF.setLine 1 2 3 4 }
    rfl rfl rfl rfl (fun hn => by simp [blankStem] at hn)
  ⟨h.1, h.2.2.1⟩

/-! ## Dragging -/

/-- With a chord, `editDrag` returns the re-laid-out stem with the adjusted
user length, attached to the chord whose hook has been moved. -/
theorem Stem.editDrag_some (host : Host) (d : ℚ) (s : Stem) (c : Chord) (hc : s.chord = some c) :
    s.editDrag host d =
      some { ({ s with userLength := s.userLength + (if c.up then -d else d) } : Stem).layout host
        with chord := some (c.dragged d) } := by
  have hup : s.up = c.up := by simp [Stem.up, hc]
  have hl : (({ s with userLength := s.userLength + (if c.up then -d else d) } : Stem).layout
      host).chord = some c := by
    rw [Stem.layout_chord]
    exact hc
  unfold Stem.editDrag
  simp only [hup, hl]
  cases hh : c.hook <;> simp [Chord.dragged, hh, ← hl]

/-- Without a chord, `editDrag` has no result. -/
theorem Stem.editDrag_none (host : Host) (d : ℚ) (s : Stem) (hc : s.chord = none) :
    s.editDrag host d = none := by
  have hl : (({ s with userLength := s.userLength + (if s.up then -d else d) } : Stem).layout
      host).chord = none := by
    rw [Stem.layout_chord]
    exact hc
  unfold Stem.editDrag
  simp only [hl]

/-- The user length enters the laid-out segment only through `y2`. -/
theorem Stem.layout_userLength_shift (host : Host) (s : Stem) (c : Chord) (u : ℚ)
    (hc : s.chord = some c) :
    (({ s with userLength := u } : Stem).layout host).line.p1 = (s.layout host).line.p1 ∧
      (({ s with userLength := u } : Stem).layout host).line.p2.x = (s.layout host).line.p2.x ∧
      (({ s with userLength := u } : Stem).layout host).line.p2.y =
        (s.layout host).line.p2.y + (if c.up then -1 else 1) * (u - s.userLength) := by
  refine ⟨?_, ?_, ?_⟩
  · unfold Stem.layout
    cases hst : c.staffType with
    | none => simp [hc, hst, Stem.up, Stem.lineWidthMag, LineF.setLine]
    | some st =>
      by_cases ht : st.isTabStaff <;>
        simp [hc, hst, ht, Stem.up, Stem.lineWidthMag, LineF.setLine]
  · unfold Stem.layout
    cases hst : c.staffType with
    | none => simp [hc, hst, Stem.up, Stem.lineWidthMag, LineF.setLine]
    | some st =>
      by_cases ht : st.isTabStaff <;>
        simp [hc, hst, ht, Stem.up, Stem.lineWidthMag, LineF.setLine]
  · rw [Stem.layout_y2_some host s c hc, Stem.layout_y2_some host { s with userLength := u } c hc]
    ring

/-- C10: with an owning chord, `editDrag` by `d` returns a stem whose
`userLength` has changed by `-d` if up and `+d` if down, whose far endpoint
y2 is the laid-out y2 moved by exactly `d`, whose near endpoint and x are
those of the layout before the drag (so of the stored segment, when the
stem was laid out), and whose chord's hook, if any, has been moved by
`(0, d)`. -/
theorem Stem.editDrag_moves_tip (host : Host) (d : ℚ) (s : Stem) (c : Chord)
    (hc : s.chord = some c) :
    ∃ t : Stem, s.editDrag host d = some t ∧
      t.userLength = s.userLength + (if s.up then -d else d) ∧
      t.line.p2.y = (s.layout host).line.p2.y + d ∧
      t.line.p1 = (s.layout host).line.p1 ∧
      t.line.p2.x = (s.layout host).line.p2.x ∧
      (∀ hk : Hook, c.hook = some hk →
        t.chord = some { c with hook := some { hk with pos := { x := hk.pos.x, y := hk.pos.y + d } } }) ∧
      (c.hook = none → t.chord = some c) ∧
      (s.line = (s.layout host).line →
        t.line.p2.y = s.line.p2.y + d ∧ t.line.p1 = s.line.p1 ∧ t.line.p2.x = s.line.p2.x) := by
  have hup : s.up = c.up := by simp [Stem.up, hc]
  have hsh := Stem.layout_userLength_shift host s c (s.userLength + (if c.up then -d else d)) hc
  have hy2 : (({ s with userLength := s.userLength + (if c.up then -d else d) } : Stem).layout
      host).line.p2.y = (s.layout host).line.p2.y + d := by
    rw [hsh.2.2]
    by_cases h : c.up <;> simp [h]
  refine ⟨_, Stem.editDrag_some host d s c hc, ?_, hy2, hsh.1, hsh.2.1, ?_, ?_, ?_⟩
  · simp only [Stem.layout_userLength, hup]
  · intro hk hh
    simp [Chord.dragged, hh, Hook.move]
  · intro hh
    simp [Chord.dragged, hh]
  · intro hl
    refine ⟨hy2.trans ?_, hsh.1.trans ?_, hsh.2.1.trans ?_⟩ <;> rw [← hl]

theorem Stem.editDrag_moves_tip_witness :
    (blankStem (some { plainChord with hook := some plainHook }) 3 0).chord =
        some { plainChord with hook := some plainHook } ∧
      ∃ t : Stem,
        (blankStem (some { plainChord with hook := some plainHook }) 3 0).editDrag
            (Host.scaled 1) (-1) = some t ∧
          t.userLength = 1 ∧ t.line.p2.y = -(15 / 4) :=
  ⟨rfl, by
    obtain ⟨t, h1, h2, h3, -⟩ := Stem.editDrag_moves_tip (Host.scaled 1) (-1)
      (blankStem (some { plainChord with hook := some plainHook }) 3 0)
      { plainChord with hook := some plainHook } rfl
    refine ⟨t, h1, ?_, ?_⟩
    · rw [h2]
      norm_num [blankStem, Stem.up, plainChord]
    · rw [h3, Stem.layout_y2_some _ _ { plainChord with hook := some plainHook } rfl]
      norm_num [blankStem, plainChord, plainHook]⟩

/-! ## Non-negative base length -/

theorem Stem.editDrag_baseLength (host : Host) (d : ℚ) (s t : Stem)
    (h : s.editDrag host d = some t) : t.baseLength = s.baseLength := by
  cases hc : s.chord with
  | none => simp [Stem.editDrag_none host d s hc] at h
  | some c =>
    rw [Stem.editDrag_some host d s c hc] at h
    simp only [Option.some.injEq] at h
    rw [← h]
    simp only [Stem.layout_baseLength]

theorem Stem.editDrag_chord (host : Host) (d : ℚ) (s t : Stem)
    (h : s.editDrag host d = some t) : t.chord ≠ none := by
  cases hc : s.chord with
  | none => simp [Stem.editDrag_none host d s hc] at h
  | some c =>
    rw [Stem.editDrag_some host d s c hc] at h
    simp only [Option.some.injEq] at h
    rw [← h]
    simp

theorem Stem.step_baseLength_nonneg (host : Host) (op : Op) (s t : Stem)
    (h0 : 0 ≤ s.baseLength) (h : s.step host op = some t) : 0 ≤ t.baseLength := by
  cases op with
  | setBaseLength x =>
    simp only [Stem.step, Option.some.injEq] at h
    rw [← h, Stem.setBaseLength, Stem.layout_baseLength]
    exact abs_nonneg x
  | layout =>
    simp only [Stem.step, Option.some.injEq] at h
    rw [← h, Stem.layout_baseLength]
    exact h0
  | spatiumChanged o n =>
    simp only [Stem.step, Option.some.injEq] at h
    rw [← h, Stem.spatiumChanged, Stem.layout_baseLength]
    exact h0
  | editDrag d =>
    simp only [Stem.step] at h
    rw [Stem.editDrag_baseLength host d s t h]
    exact h0

theorem Stem.step_total (host : Host) (op : Op) (s : Stem) (hc : s.chord ≠ none) :
    ∃ t : Stem, s.step host op = some t ∧ t.chord ≠ none := by
  cases op with
  | setBaseLength x =>
    exact ⟨_, rfl, by rw [Stem.setBaseLength, Stem.layout_chord]; exact hc⟩
  | layout => exact ⟨_, rfl, by rw [Stem.layout_chord]; exact hc⟩
  | spatiumChanged o n =>
    exact ⟨_, rfl, by rw [Stem.spatiumChanged, Stem.layout_chord]; exact hc⟩
  | editDrag d =>
    cases hs : s.chord with
    | none => exact absurd hs hc
    | some c =>
      exact ⟨_, Stem.editDrag_some host d s c hs,
        Stem.editDrag_chord host d s _ (Stem.editDrag_some host d s c hs)⟩

theorem Stem.run_baseLength_nonneg (host : Host) (ops : List Op) :
    ∀ s t : Stem, 0 ≤ s.baseLength → s.run host ops = some t → 0 ≤ t.baseLength := by
  induction ops with
  | nil =>
    intro s t h0 h
    simp only [Stem.run, Option.some.injEq] at h
    rw [← h]
    exact h0
  | cons op ops ih =>
    intro s t h0 h
    cases hs : s.step host op with
    | none => simp [Stem.run, hs] at h
    | some u =>
      simp only [Stem.run, hs] at h
      exact ih u t (Stem.step_baseLength_nonneg host op s u h0 hs) h

theorem Stem.run_total (host : Host) (ops : List Op) :
    ∀ s : Stem, s.chord ≠ none → ∃ t : Stem, s.run host ops = some t := by
  induction ops with
  | nil => exact fun s _ => ⟨s, rfl⟩
  | cons op ops ih =>
    intro s hc
    obtain ⟨u, hu, huc⟩ := Stem.step_total host op s hc
    obtain ⟨t, ht⟩ := ih u huc
    exact ⟨t, by simp only [Stem.run, hu, ht]⟩

/-- C7: `setBaseLength(x)` stores `|x|`; `layout`, `spatiumChanged` and
`editDrag` leave `baseLength` unchanged; hence every state reached from a
state with `baseLength ≥ 0` by a sequence of these operations has
`baseLength ≥ 0`, and with an owning chord every such sequence does reach a
state. -/
theorem Stem.baseLength_nonneg (host : Host) (s : Stem) :
    (∀ x : ℚ, (s.setBaseLength host x).baseLength = |x|) ∧
      (s.layout host).baseLength = s.baseLength ∧
      (∀ a b : ℚ, (s.spatiumChanged host a b).baseLength = s.baseLength) ∧
      (∀ (d : ℚ) (t : Stem), s.editDrag host d = some t → t.baseLength = s.baseLength) ∧
      (∀ (ops : List Op) (t : Stem), 0 ≤ s.baseLength → s.run host ops = some t →
        0 ≤ t.baseLength) ∧
      (∀ ops : List Op, s.chord ≠ none → ∃ t : Stem, s.run host ops = some t) := by
  refine ⟨fun x => ?_, Stem.layout_baseLength host s, fun a b => ?_,
    fun d t h => Stem.editDrag_baseLength host d s t h,
    fun ops t h0 h => Stem.run_baseLength_nonneg host ops s t h0 h,
    fun ops hc => Stem.run_total host ops s hc⟩
  · rw [Stem.setBaseLength, Stem.layout_baseLength]
  · rw [Stem.spatiumChanged, Stem.layout_baseLength]

theorem Stem.baseLength_nonneg_witness :
    0 ≤ (blankStem (some plainChord) 1 0).baseLength ∧
      ∃ t : Stem,
        (blankStem (some plainChord) 1 0).run (Host.scaled 1)
            [Op.setBaseLength (-3), Op.editDrag 1, Op.spatiumChanged 1 2, Op.layout] = some t ∧
          0 ≤ t.baseLength :=
  have h0 : 0 ≤ (blankStem (some plainChord) 1 0).baseLength := by norm_num [blankStem]
  ⟨h0, by
    have h := Stem.baseLength_nonneg (Host.scaled 1) (blankStem (some plainChord) 1 0)
    obtain ⟨t, ht⟩ := h.2.2.2.2.2
      [Op.setBaseLength (-3), Op.editDrag 1, Op.spatiumChanged 1 2, Op.layout]
      (by simp [blankStem])
    exact ⟨t, ht, h.2.2.2.2.1 _ t h0 ht⟩⟩

end Ms
